import Mathlib

/-!
Shallow embedding of the pymsh multiset-hash library.

Byte strings are modelled as `List Nat` (one `Nat` per byte) and Python
arbitrary-precision integers as `Nat` / `Int`.  A Python dict
`{element: multiplicity}` is modelled as its iteration sequence, a
`List (Elem × Int)`; dict semantics (unique keys) is assumed only where a
claim needs it.  The cryptographic primitives (HMAC-SHA256, SHA-256,
BLAKE2b, HMAC-BLAKE2b) are opaque pure functions; they are taken as
explicit parameters of every definition that uses them, exactly at the
call sites they occupy in the source.  Python exceptions are modelled by
`Option` (`none` = the call raised).
-/

/-- A byte string: the unit of set membership in the library. -/
abbrev Elem : Type := List Nat

/-- A multiset in dict-iteration form: the sequence of
`(element, multiplicity)` items produced by `multiset.items()`. -/
abbrev MultisetL : Type := List (Elem × Int)

/-- Big-endian `int.from_bytes(l, 'big')`. -/
def fromBytes (l : List Nat) : Nat :=
  l.foldl (fun a b => a * 256 + b) 0

namespace Pymsh

/-- State of `MSetXORHash` (src/pymsh.py): secret key, output bit length
`m`, and the nonce drawn at construction. -/
structure MSetXORHash where
  key : List Nat
  m : Nat
  nonce : List Nat

/-- Method `MSetXORHash.H` (src/pymsh.py lines 26-39): HMAC of `bytes([tag]) + b`
under the key, reduced modulo `2^m`.  `hm` is the opaque
HMAC-SHA256-as-integer primitive. -/
def MSetXORHash.H (hm : List Nat → List Nat → Nat) (s : MSetXORHash)
    (tag : Nat) (b : List Nat) : Nat :=
  hm s.key (tag :: b) % 2 ^ s.m

/-- One loop iteration of `MSetXORHash.hash` (src/pymsh.py lines 53-56):
the element hash is multiplied by `mult % 2` (0 or 1) and XORed into the
running sum, and the multiplicity is added to the running count. -/
def MSetXORHash.step (hm : List Nat → List Nat → Nat) (s : MSetXORHash)
    (sc : Nat × Int) (em : Elem × Int) : Nat × Int :=
  (sc.1 ^^^ s.H hm 1 em.1 * (em.2 % 2).toNat, sc.2 + em.2)

/-- Method `MSetXORHash.hash` (src/pymsh.py lines 42-57): returns
`(xor_sum, total_count mod 2^m, nonce)`. -/
def MSetXORHash.hash (hm : List Nat → List Nat → Nat) (s : MSetXORHash)
    (ms : MultisetL) : Nat × Int × List Nat :=
  let h0 := s.H hm 0 s.nonce
  let p := ms.foldl (MSetXORHash.step hm s) (h0, (0 : Int))
  (p.1, p.2 % ((2 : Int) ^ s.m), s.nonce)

/-- State of `MSetAddHash` (src/pymsh.py). -/
structure MSetAddHash where
  key : List Nat
  m : Nat
  nonce : List Nat

/-- Method `MSetAddHash.H` (src/pymsh.py lines 79-83), same construction as the
XOR variant. -/
def MSetAddHash.H (hm : List Nat → List Nat → Nat) (s : MSetAddHash)
    (tag : Nat) (b : List Nat) : Nat :=
  hm s.key (tag :: b) % 2 ^ s.m

/-- One loop iteration of `MSetAddHash.hash` (src/pymsh.py lines 96-100):
raise `ValueError` (modelled `none`) on a negative multiplicity, else add
`H(1, elem) * mult` modulo `2^m`. -/
def MSetAddHash.step (hm : List Nat → List Nat → Nat) (s : MSetAddHash)
    (acc : Option Nat) (em : Elem × Int) : Option Nat :=
  acc.bind (fun x =>
    if em.2 < 0 then none
    else some ((x + s.H hm 1 em.1 * em.2.toNat) % 2 ^ s.m))

/-- Method `MSetAddHash.hash` (src/pymsh.py lines 85-101): `(sum mod 2^m, nonce)`,
or `none` when the loop raises on a negative multiplicity. -/
def MSetAddHash.hash (hm : List Nat → List Nat → Nat) (s : MSetAddHash)
    (ms : MultisetL) : Option (Nat × List Nat) :=
  (ms.foldl (MSetAddHash.step hm s) (some (s.H hm 0 s.nonce))).map
    (fun x => (x, s.nonce))

/-- Method `MSetAddHash.hash` as a method execution on the instance: the source
method assigns to no field of `self`, so the post-state is the pre-state. -/
def MSetAddHash.hashRun (hm : List Nat → List Nat → Nat) (s : MSetAddHash)
    (ms : MultisetL) : Option (Nat × List Nat) × MSetAddHash :=
  (s.hash hm ms, s)

/-- State of `MSetMuHash` (src/pymsh.py): the field prime `q` drawn at
construction by `randprime(2^k, 2^(k+1))`. -/
structure MSetMuHash where
  q : Nat

/-- Method `MSetMuHash.H` (src/pymsh.py lines 117-126): SHA-256 of the element
reduced mod `q`, remapping `0` to `1`.  `shaB` is the opaque SHA-256
digest primitive (bytes to bytes). -/
def MSetMuHash.H (shaB : List Nat → List Nat) (s : MSetMuHash)
    (b : List Nat) : Nat :=
  let h := fromBytes (shaB b) % s.q
  if h = 0 then 1 else h

/-- Modular inverse as computed by Python `pow(b, -1, q)` via the extended
Euclidean algorithm (only its existence matters to the claims). -/
def invMod (b q : Nat) : Nat :=
  ((Nat.gcdA b q) % (q : Int)).toNat

/-- Python three-argument `pow(b, e, q)`: for `e ≥ 0` ordinary modular
exponentiation; for `e < 0` it requires `gcd(b, q) = 1` (else it raises
`ValueError`, modelled `none`) and returns `invMod b q ^ (-e) % q`. -/
def pyPowMod (b : Nat) (e : Int) (q : Nat) : Option Nat :=
  if 0 ≤ e then some (b ^ e.toNat % q)
  else if Nat.gcd b q = 1 then some (invMod b q ^ (-e).toNat % q)
  else none

/-- One loop iteration of `MSetMuHash.hash` (src/pymsh.py line 139). -/
def MSetMuHash.step (shaB : List Nat → List Nat) (s : MSetMuHash)
    (acc : Option Nat) (em : Elem × Int) : Option Nat :=
  acc.bind (fun p => (pyPowMod (s.H shaB em.1) em.2 s.q).map
    (fun t => p * t % s.q))

/-- Method `MSetMuHash.hash` (src/pymsh.py lines 128-140): product over the items
of `H(elem) ^ mult mod q`, starting from `1`. -/
def MSetMuHash.hash (shaB : List Nat → List Nat) (s : MSetMuHash)
    (ms : MultisetL) : Option Nat :=
  ms.foldl (MSetMuHash.step shaB s) (some 1)

/-- State of `MSetVAddHash` (src/pymsh.py): component modulus `n` and
vector length `l`. -/
structure MSetVAddHash where
  n : Nat
  l : Nat

/-- Method `MSetVAddHash.H` (src/pymsh.py lines 156-166): the SHA-256 digest of
the element sliced into `l` four-byte chunks (`h[i*4:(i+1)*4]`), each
decoded big-endian and reduced mod `n`. -/
def MSetVAddHash.H (shaB : List Nat → List Nat) (s : MSetVAddHash)
    (b : List Nat) : List Nat :=
  (List.range s.l).map (fun i => fromBytes (((shaB b).drop (i * 4)).take 4) % s.n)

/-- One loop iteration of `MSetVAddHash.hash` (src/pymsh.py lines 178-181):
`sum_vector[i] = (sum_vector[i] + vec[i] * mult) % n` for `i < l`. -/
def MSetVAddHash.step (shaB : List Nat → List Nat) (s : MSetVAddHash)
    (sv : List Int) (em : Elem × Int) : List Int :=
  (List.range s.l).map
    (fun i => (sv.getD i 0 + ((s.H shaB em.1).getD i 0 : Int) * em.2) % (s.n : Int))

/-- Method `MSetVAddHash.hash` (src/pymsh.py lines 168-182): coordinate-wise sums
starting from `[0] * l`. -/
def MSetVAddHash.hash (shaB : List Nat → List Nat) (s : MSetVAddHash)
    (ms : MultisetL) : List Int :=
  ms.foldl (MSetVAddHash.step shaB s) (List.replicate s.l (0 : Int))

end Pymsh

/-- Little-endian base-256 digits of a natural number (empty for 0). -/
def natToBytesAux : Nat → List Nat
  | 0 => []
  | n + 1 => ((n + 1) % 256) :: natToBytesAux ((n + 1) / 256)
decreasing_by exact Nat.div_lt_self (Nat.succ_pos n) (by decide)

/-- Python `x.to_bytes((x.bit_length() + 7) // 8, 'big')`: the minimal
big-endian byte representation, the empty byte string for `0`. -/
def natToBytes (x : Nat) : List Nat :=
  (natToBytesAux x).reverse

namespace PymshX

/-- State of `XORMSH` (src/src/pymsh/xormsh.py): key `K` and nonce drawn at
construction, `init_hmac` the integer value of `hmac.new(K, nonce,
blake2b).digest()`, and the running accumulator `combined_hash`. -/
structure XORMSH where
  K : List Nat
  nonce : List Nat
  init_hmac : Nat
  combined_hash : Nat

/-- Constructor `XORMSH.__init__` (src/src/pymsh/xormsh.py lines 8-27) for given drawn
key and nonce bytes; `hb` is the opaque HMAC-BLAKE2b primitive. -/
def XORMSH.make (hb : List Nat → List Nat → List Nat)
    (K nonce : List Nat) : XORMSH :=
  let ih := fromBytes (hb K nonce)
  ⟨K, nonce, ih, ih⟩

/-- Method `XORMSH.reset` (src/src/pymsh/xormsh.py lines 30-35). -/
def XORMSH.reset (s : XORMSH) : XORMSH :=
  { s with combined_hash := s.init_hmac }

/-- Method `XORMSH.__combine` (src/src/pymsh/xormsh.py lines 38-48): XOR the
integer value of `new_hash` into the accumulator; return the minimal
big-endian bytes of the new accumulator together with the new state. -/
def XORMSH.combine (s : XORMSH) (new_hash : List Nat) : List Nat × XORMSH :=
  let c := s.combined_hash ^^^ fromBytes new_hash
  (natToBytes c, { s with combined_hash := c })

/-- Method `MSH.hash_element` (src/src/pymsh/base.py lines 16-23) with the
instance hash function (BLAKE2b by default), `blake` opaque. -/
def hashElement (blake : List Nat → List Nat) (e : List Nat) : List Nat :=
  blake e

/-- Method `XORMSH.hash` (src/src/pymsh/xormsh.py lines 51-61): fold every
element's hash into the accumulator, then finalize by combining with
`bytes()` (a no-op XOR with 0) and hashing the returned bytes. -/
def XORMSH.hash (blake : List Nat → List Nat) (s : XORMSH)
    (elements : List (List Nat)) : List Nat × XORMSH :=
  let s1 := elements.foldl (fun st e => (st.combine (hashElement blake e)).2) s
  let r := s1.combine []
  (blake r.1, r.2)

/-- Method `XORMSH.update` (src/src/pymsh/xormsh.py lines 64-72): combine one new
element's hash and return the finalized digest of the running value. -/
def XORMSH.update (blake : List Nat → List Nat) (s : XORMSH)
    (e : List Nat) : List Nat × XORMSH :=
  let r := s.combine (hashElement blake e)
  (blake r.1, r.2)

/-- Run `update` over a nonempty sequence `e :: es`, keeping the return
value of the last call. -/
def XORMSH.updatesLast (blake : List Nat → List Nat) (s : XORMSH)
    (e : List Nat) (es : List (List Nat)) : List Nat × XORMSH :=
  es.foldl (fun p x => XORMSH.update blake p.2 x) (s.update blake e)

/-- One public operation on an `XORMSH` instance. -/
inductive XOp where
  | hashOp : List (List Nat) → XOp
  | updateOp : List Nat → XOp
  | resetOp : XOp

/-- Execute one public method call for its state effect. -/
def XORMSH.execOp (blake : List Nat → List Nat) (s : XORMSH) : XOp → XORMSH
  | .hashOp es => (s.hash blake es).2
  | .updateOp e => (s.update blake e).2
  | .resetOp => s.reset

/-- Execute a sequence of public method calls. -/
def XORMSH.execOps (blake : List Nat → List Nat) (s : XORMSH)
    (ops : List XOp) : XORMSH :=
  ops.foldl (XORMSH.execOp blake) s

/-- XOR of the element-hash integers of a list of elements. -/
def xorOf (blake : List Nat → List Nat) (es : List (List Nat)) : Nat :=
  es.foldl (fun a e => a ^^^ fromBytes (blake e)) 0

end PymshX

/-- Concrete stand-in for the keyed HMAC primitive, used only to
instantiate witnesses at concrete inputs. -/
def hmC : List Nat → List Nat → Nat :=
  fun k d => fromBytes k + fromBytes d + 1

/-- Concrete stand-in for the SHA-256 digest primitive (one-byte digests),
used only to instantiate witnesses at concrete inputs. -/
def shaC : List Nat → List Nat :=
  fun b => [fromBytes b % 251 + 1]

/-- Concrete stand-in for the BLAKE2b digest primitive, used only to
instantiate witnesses at concrete inputs. -/
def blakeC : List Nat → List Nat :=
  fun b => [fromBytes b % 251, 3]

/-- Concrete stand-in for the HMAC-BLAKE2b primitive, used only to
instantiate witnesses at concrete inputs. -/
def hbC : List Nat → List Nat → List Nat :=
  fun k n => [fromBytes k % 7 + 1, fromBytes n % 11]

/-- Folding a right-commutative function is invariant under permutation of
the list. -/
theorem foldl_perm {α β : Type _} {f : β → α → β}
    (hf : ∀ b x y, f (f b x) y = f (f b y) x) :
    ∀ {l₁ l₂ : List α}, l₁.Perm l₂ → ∀ b, l₁.foldl f b = l₂.foldl f b := by
  intro l₁ l₂ h
  induction h with
  | nil => intro b; rfl
  | cons x _ ih => intro b; simp only [List.foldl_cons]; exact ih _
  | swap x y l => intro b; simp only [List.foldl_cons]; rw [hf]
  | trans _ _ ih₁ ih₂ => intro b; rw [ih₁, ih₂]

namespace Pymsh

/-- The XOR-variant loop body is right-commutative. -/
theorem xorStep_comm (hm : List Nat → List Nat → Nat) (s : MSetXORHash)
    (b : Nat × Int) (x y : Elem × Int) :
    s.step hm (s.step hm b x) y = s.step hm (s.step hm b y) x := by
  unfold MSetXORHash.step
  simp only [Prod.mk.injEq]
  constructor
  · rw [Nat.xor_assoc, Nat.xor_assoc,
      Nat.xor_comm (s.H hm 1 x.1 * (x.2 % 2).toNat)]
  · omega

/-- The Add-variant loop body is right-commutative. -/
theorem addStep_comm (hm : List Nat → List Nat → Nat) (s : MSetAddHash)
    (b : Option Nat) (x y : Elem × Int) :
    s.step hm (s.step hm b x) y = s.step hm (s.step hm b y) x := by
  rcases b with _ | v
  · rfl
  · unfold MSetAddHash.step
    by_cases hx : x.2 < 0 <;> by_cases hy : y.2 < 0 <;> simp [hx, hy]
    rw [Nat.add_right_comm]

/-- The Mu-variant loop body is right-commutative. -/
theorem muStep_comm (shaB : List Nat → List Nat) (s : MSetMuHash)
    (b : Option Nat) (x y : Elem × Int) :
    s.step shaB (s.step shaB b x) y = s.step shaB (s.step shaB b y) x := by
  rcases b with _ | v
  · rfl
  · unfold MSetMuHash.step
    rcases htx : pyPowMod (s.H shaB x.1) x.2 s.q with _ | tx <;>
    rcases hty : pyPowMod (s.H shaB y.1) y.2 s.q with _ | ty <;> simp [htx, hty]
    rw [Nat.mul_right_comm]

end Pymsh

/-- Reading index `i < l` out of a map over `List.range l`. -/
theorem getD_map_range {α : Type _} (g : Nat → α) (d : α) {i l : Nat}
    (h : i < l) : ((List.range l).map g).getD i d = g i := by
  rw [List.getD_eq_getElem?_getD, List.getElem?_map, List.getElem?_range h]
  rfl

/-- Reduction of the left summand does not change a sum modulo `n`. -/
theorem int_mod_add_mod (a b n : Int) : (a % n + b) % n = (a + b) % n := by
  rw [Int.add_emod, Int.emod_emod_of_dvd a dvd_rfl, ← Int.add_emod]

namespace Pymsh

/-- The VAdd-variant loop body is right-commutative. -/
theorem vaddStep_comm (shaB : List Nat → List Nat) (s : MSetVAddHash)
    (sv : List Int) (x y : Elem × Int) :
    s.step shaB (s.step shaB sv x) y = s.step shaB (s.step shaB sv y) x := by
  unfold MSetVAddHash.step
  apply List.map_congr_left
  intro i hi
  have hil : i < s.l := List.mem_range.mp hi
  rw [getD_map_range _ _ hil, getD_map_range _ _ hil, int_mod_add_mod,
    int_mod_add_mod]
  congr 1
  ring

end Pymsh

/-- Claim C1: for every hasher variant (MSetXORHash, MSetAddHash,
MSetMuHash, MSetVAddHash) and every permutation of the (element,
multiplicity) entries of a multiset, `hash` returns the same digest on the
same instance: the digest depends only on the element-to-multiplicity
mapping, never on iteration order. -/
theorem claim1_order_independence
    (hm : List Nat → List Nat → Nat) (shaB : List Nat → List Nat)
    (sx : Pymsh.MSetXORHash) (sa : Pymsh.MSetAddHash)
    (sm : Pymsh.MSetMuHash) (sv : Pymsh.MSetVAddHash)
    (ms₁ ms₂ : MultisetL) (hp : ms₁.Perm ms₂) :
    sx.hash hm ms₁ = sx.hash hm ms₂ ∧
    sa.hash hm ms₁ = sa.hash hm ms₂ ∧
    sm.hash shaB ms₁ = sm.hash shaB ms₂ ∧
    sv.hash shaB ms₁ = sv.hash shaB ms₂ := by
  refine ⟨?_, ?_, ?_, ?_⟩
  · simp only [Pymsh.MSetXORHash.hash]
    rw [foldl_perm (Pymsh.xorStep_comm hm sx) hp]
  · simp only [Pymsh.MSetAddHash.hash]
    rw [foldl_perm (Pymsh.addStep_comm hm sa) hp]
  · simp only [Pymsh.MSetMuHash.hash]
    rw [foldl_perm (Pymsh.muStep_comm shaB sm) hp]
  · simp only [Pymsh.MSetVAddHash.hash]
    rw [foldl_perm (Pymsh.vaddStep_comm shaB sv) hp]

/-- Witness for C1 at a concrete instance, multiset and permutation. -/
theorem claim1_witness :
    Pymsh.MSetXORHash.hash hmC ⟨[1], 4, [2]⟩ [([1], 1), ([2], 2)] =
      Pymsh.MSetXORHash.hash hmC ⟨[1], 4, [2]⟩ [([2], 2), ([1], 1)] ∧
    Pymsh.MSetAddHash.hash hmC ⟨[1], 4, [2]⟩ [([1], 1), ([2], 2)] =
      Pymsh.MSetAddHash.hash hmC ⟨[1], 4, [2]⟩ [([2], 2), ([1], 1)] ∧
    Pymsh.MSetMuHash.hash shaC ⟨7⟩ [([1], 1), ([2], 2)] =
      Pymsh.MSetMuHash.hash shaC ⟨7⟩ [([2], 2), ([1], 1)] ∧
    Pymsh.MSetVAddHash.hash shaC ⟨16, 4⟩ [([1], 1), ([2], 2)] =
      Pymsh.MSetVAddHash.hash shaC ⟨16, 4⟩ [([2], 2), ([1], 1)] :=
  claim1_order_independence hmC shaC ⟨[1], 4, [2]⟩ ⟨[1], 4, [2]⟩ ⟨7⟩ ⟨16, 4⟩
    [([1], 1), ([2], 2)] [([2], 2), ([1], 1)] (by decide)

/-- Total multiplicity of a multiset (the value accumulated in `count` by
the XOR variant). -/
def totalMult : MultisetL → Int
  | [] => 0
  | p :: ms => p.2 + totalMult ms

/-- Shifting the accumulator out of the total-multiplicity fold. -/
theorem totalMult_from (ms : MultisetL) :
    ∀ a : Int, ms.foldl (fun a p => a + p.2) a = a + totalMult ms := by
  induction ms with
  | nil => intro a; simp [totalMult]
  | cons p ms ih =>
    intro a
    rw [List.foldl_cons, ih]
    simp only [totalMult]
    omega

namespace Pymsh

/-- Second projection of the XOR-variant fold: the running count. -/
theorem xorFold_snd (hm : List Nat → List Nat → Nat) (s : MSetXORHash)
    (ms : MultisetL) : ∀ sc : Nat × Int,
    (ms.foldl (MSetXORHash.step hm s) sc).2 = sc.2 + totalMult ms := by
  induction ms with
  | nil => intro sc; simp [totalMult]
  | cons p ms ih =>
    intro sc
    rw [List.foldl_cons, ih]
    simp only [totalMult, MSetXORHash.step]
    omega

/-- First projection of the XOR-variant fold: the running XOR sum does not
depend on the count component. -/
theorem xorFold_fst (hm : List Nat → List Nat → Nat) (s : MSetXORHash)
    (ms : MultisetL) : ∀ sc : Nat × Int,
    (ms.foldl (MSetXORHash.step hm s) sc).1 =
      ms.foldl (fun x em => x ^^^ s.H hm 1 em.1 * (em.2 % 2).toNat) sc.1 := by
  induction ms with
  | nil => intro sc; rfl
  | cons p ms ih =>
    intro sc
    rw [List.foldl_cons, List.foldl_cons, ih]
    rfl

/-- Entries of even multiplicity contribute nothing to the XOR sum: the
fold equals the fold over the odd-multiplicity entries only. -/
theorem xorFold_filter_odd (hm : List Nat → List Nat → Nat) (s : MSetXORHash)
    (ms : MultisetL) : ∀ x : Nat,
    ms.foldl (fun x em => x ^^^ s.H hm 1 em.1 * (em.2 % 2).toNat) x =
      (ms.filter (fun p => p.2 % 2 = 1)).foldl
        (fun x em => x ^^^ s.H hm 1 em.1 * (em.2 % 2).toNat) x := by
  induction ms with
  | nil => intro x; rfl
  | cons p ms ih =>
    intro x
    by_cases hp : p.2 % 2 = 1
    · rw [List.foldl_cons]
      have : (p :: ms).filter (fun p => p.2 % 2 = 1) =
          p :: ms.filter (fun p => p.2 % 2 = 1) := by
        simp [List.filter_cons, hp]
      rw [this, List.foldl_cons, ih]
    · have hz : p.2 % 2 = 0 := by omega
      have : (p :: ms).filter (fun p => p.2 % 2 = 1) =
          ms.filter (fun p => p.2 % 2 = 1) := by
        simp [List.filter_cons, hp]
      rw [this, List.foldl_cons, hz]
      rw [show ((0 : Int).toNat = 0) from rfl, Nat.mul_zero, Nat.xor_zero, ih]

end Pymsh

/-- Counterexample to C5 as stated: the odd-multiplicity inequality
`hash({a: 2k+1})[0] != hash({})[0]` fails on the code.  On the instance
with key `[1]`, bit width `m = 0` and nonce `[2]` every hash value is
reduced mod `2^0 = 1`, so the nonempty multiset `{[3]: 1}` (multiplicity
`2*0+1`) has the same XOR-sum component as `{}`; and on the instance with
bit width `m = 2` the element `[2]` happens to have a zero residue, so
`{[2]: 1}` also collides with `{}` on the XOR-sum component. -/
theorem claim5_counterexample :
    (Pymsh.MSetXORHash.hash hmC ⟨[1], 0, [2]⟩ [([3], 1)]).1 =
      (Pymsh.MSetXORHash.hash hmC ⟨[1], 0, [2]⟩ []).1 ∧
    (Pymsh.MSetXORHash.hash hmC ⟨[1], 2, [2]⟩ [([2], 1)]).1 =
      (Pymsh.MSetXORHash.hash hmC ⟨[1], 2, [2]⟩ []).1 := by
  constructor <;> decide

/-- Claim C5, amended: on a fixed MSetXORHash instance, the XOR-sum
component of `hash {a: 2k}` equals that of `hash {}` unconditionally, and
in general an entry contributes to the XOR sum only when its multiplicity
is odd (the sum over a multiset equals the sum over its odd-multiplicity
entries); the XOR-sum of `hash {a: 2k+1}` differs from that of `hash {}`
exactly under the side condition that the reduced keyed hash `H(1, a)` is
a nonzero residue mod `2^m` — without it the inequality is false, for
every element when `m = 0` and for zero-residue elements at any `m`. -/
theorem claim5_parity_cancellation (hm : List Nat → List Nat → Nat)
    (s : Pymsh.MSetXORHash) (a : Elem) (k : Nat) :
    (s.hash hm [(a, (2 * k : Int))]).1 = (s.hash hm []).1 ∧
    (s.H hm 1 a ≠ 0 →
      (s.hash hm [(a, (2 * k + 1 : Int))]).1 ≠ (s.hash hm []).1) ∧
    ∀ ms : MultisetL,
      (s.hash hm ms).1 = (s.hash hm (ms.filter (fun p => p.2 % 2 = 1))).1 := by
  refine ⟨?_, ?_, ?_⟩
  · simp only [Pymsh.MSetXORHash.hash, List.foldl_cons, List.foldl_nil,
      Pymsh.MSetXORHash.step]
    have h2 : ((2 * k : Int)) % 2 = 0 := by omega
    rw [h2]
    rw [show ((0 : Int).toNat = 0) from rfl, Nat.mul_zero, Nat.xor_zero]
  · intro hne heq
    apply hne
    simp only [Pymsh.MSetXORHash.hash, List.foldl_cons, List.foldl_nil,
      Pymsh.MSetXORHash.step] at heq
    have h2 : ((2 * k + 1 : Int)) % 2 = 1 := by omega
    rw [h2] at heq
    rw [show ((1 : Int).toNat = 1) from rfl, Nat.mul_one] at heq
    have := congrArg (fun z => s.H hm 0 s.nonce ^^^ z) heq
    dsimp at this
    rwa [← Nat.xor_assoc, Nat.xor_self, Nat.zero_xor] at this
  · intro ms
    simp only [Pymsh.MSetXORHash.hash]
    rw [Pymsh.xorFold_fst, Pymsh.xorFold_fst, Pymsh.xorFold_filter_odd]

/-- Witness for C5 at a concrete instance, element, and `k = 1`. -/
theorem claim5_witness :
    (Pymsh.MSetXORHash.hash hmC ⟨[1], 4, [2]⟩ [([3], 2)]).1 =
      (Pymsh.MSetXORHash.hash hmC ⟨[1], 4, [2]⟩ []).1 ∧
    Pymsh.MSetXORHash.H hmC ⟨[1], 4, [2]⟩ 1 [3] ≠ 0 ∧
    (Pymsh.MSetXORHash.hash hmC ⟨[1], 4, [2]⟩ [([3], 3)]).1 ≠
      (Pymsh.MSetXORHash.hash hmC ⟨[1], 4, [2]⟩ []).1 ∧
    (Pymsh.MSetXORHash.hash hmC ⟨[1], 4, [2]⟩ [([3], 2), ([4], 3)]).1 =
      (Pymsh.MSetXORHash.hash hmC ⟨[1], 4, [2]⟩
        ([([3], 2), ([4], 3)].filter (fun p => p.2 % 2 = 1))).1 :=
  ⟨(claim5_parity_cancellation hmC ⟨[1], 4, [2]⟩ [3] 1).1,
   by decide,
   (claim5_parity_cancellation hmC ⟨[1], 4, [2]⟩ [3] 1).2.1 (by decide),
   (claim5_parity_cancellation hmC ⟨[1], 4, [2]⟩ [3] 1).2.2 [([3], 2), ([4], 3)]⟩

namespace Pymsh

/-- Sum of the keyed element-hash contributions `H(1, e) * mult` of a
multiset, before modular reduction. -/
def addContrib (hm : List Nat → List Nat → Nat) (s : MSetAddHash) :
    MultisetL → Nat
  | [] => 0
  | p :: ms => s.H hm 1 p.1 * p.2.toNat + addContrib hm s ms

/-- Folding the Add loop from `none` stays `none` (an already-raised error
is final). -/
theorem addFold_none (hm : List Nat → List Nat → Nat) (s : MSetAddHash)
    (ms : MultisetL) : ms.foldl (MSetAddHash.step hm s) none = none := by
  induction ms with
  | nil => rfl
  | cons p ms ih => rw [List.foldl_cons]; exact ih

/-- On a multiset without negative multiplicities the Add fold succeeds and
computes `(x + addContrib) mod 2^m` from any reduced accumulator `x`. -/
theorem addFold_some (hm : List Nat → List Nat → Nat) (s : MSetAddHash)
    (ms : MultisetL) (hms : ∀ p ∈ ms, ¬p.2 < 0) :
    ∀ x : Nat, x < 2 ^ s.m →
      ms.foldl (MSetAddHash.step hm s) (some x) =
        some ((x + addContrib hm s ms) % 2 ^ s.m) := by
  induction ms with
  | nil =>
    intro x hx
    simp only [List.foldl_nil, addContrib, Nat.add_zero, Nat.mod_eq_of_lt hx]
  | cons p ms ih =>
    intro x hx
    have hp : ¬p.2 < 0 := hms p (List.mem_cons_self p ms)
    rw [List.foldl_cons]
    have hstep : MSetAddHash.step hm s (some x) p =
        some ((x + s.H hm 1 p.1 * p.2.toNat) % 2 ^ s.m) := by
      simp [MSetAddHash.step, hp]
    rw [hstep, ih (fun q hq => hms q (List.mem_cons_of_mem p hq)) _
      (Nat.mod_lt _ (Nat.two_pow_pos s.m))]
    simp only [addContrib, Nat.mod_add_mod, Nat.add_assoc]

/-- The Add fold from a reduced accumulator is `none` exactly when some
entry has a negative multiplicity. -/
theorem addFold_none_iff (hm : List Nat → List Nat → Nat) (s : MSetAddHash)
    (ms : MultisetL) : ∀ x : Nat,
    (ms.foldl (MSetAddHash.step hm s) (some x) = none ↔
      ∃ p ∈ ms, p.2 < 0) := by
  induction ms with
  | nil => intro x; simp
  | cons p ms ih =>
    intro x
    rw [List.foldl_cons]
    by_cases hp : p.2 < 0
    · have hstep : MSetAddHash.step hm s (some x) p = none := by
        simp [MSetAddHash.step, hp]
      rw [hstep, addFold_none]
      simp only [true_iff]
      exact ⟨p, List.mem_cons_self p ms, hp⟩
    · have hstep : MSetAddHash.step hm s (some x) p =
          some ((x + s.H hm 1 p.1 * p.2.toNat) % 2 ^ s.m) := by
        simp [MSetAddHash.step, hp]
      rw [hstep, ih]
      constructor
      · rintro ⟨q, hq, hq2⟩
        exact ⟨q, List.mem_cons_of_mem p hq, hq2⟩
      · rintro ⟨q, hq, hq2⟩
        rcases List.mem_cons.mp hq with h | h
        · exact absurd (h ▸ hq2) hp
        · exact ⟨q, h, hq2⟩

/-- The seed value `H(0, nonce)` is an `m`-bit residue. -/
theorem H_lt_add (hm : List Nat → List Nat → Nat) (s : MSetAddHash)
    (tag : Nat) (b : List Nat) : s.H hm tag b < 2 ^ s.m :=
  Nat.mod_lt _ (Nat.two_pow_pos s.m)

end Pymsh

/-- Counterexample to C4 as stated: on the instance with key `[1]`, bit
width `m = 4` and nonce `[2]`, the nonempty multiset `{[3]: 16}` (its
multiplicity is `2^m`) collides with the empty multiset, for both the XOR
and the Add variant.  The collision is forced by the arithmetic alone: the
count is reduced mod `2^m` and the Add contribution `H * 2^m` vanishes mod
`2^m`, whatever the HMAC values are. -/
theorem claim4_counterexample :
    Pymsh.MSetXORHash.hash hmC ⟨[1], 4, [2]⟩ [([3], 16)] =
      Pymsh.MSetXORHash.hash hmC ⟨[1], 4, [2]⟩ [] ∧
    Pymsh.MSetAddHash.hash hmC ⟨[1], 4, [2]⟩ [([3], 16)] =
      Pymsh.MSetAddHash.hash hmC ⟨[1], 4, [2]⟩ [] := by
  constructor <;> decide

/-- Claim C4, amended: on a fixed instance, `hash {}` differs from
`hash ms` for the XOR variant whenever the total multiplicity of `ms` is
not a multiple of `2^m` (the count components differ), and for the Add
variant whenever the total element-hash contribution of `ms` is not a
multiple of `2^m`.  Without such a side condition the claim is false:
`{a: 2^m}` collides with `{}` on every instance. -/
theorem claim4_amended_empty_set_distinctness
    (hm : List Nat → List Nat → Nat)
    (sx : Pymsh.MSetXORHash) (sa : Pymsh.MSetAddHash) (ms ms' : MultisetL)
    (hx : totalMult ms % ((2 : Int) ^ sx.m) ≠ 0)
    (ha : Pymsh.addContrib hm sa ms' % 2 ^ sa.m ≠ 0) :
    sx.hash hm ms ≠ sx.hash hm [] ∧
    sa.hash hm ms' ≠ sa.hash hm [] := by
  constructor
  · intro heq
    apply hx
    have h2 := congrArg (fun t : Nat × Int × List Nat => t.2.1) heq
    simp only [Pymsh.MSetXORHash.hash, List.foldl_nil] at h2
    rw [Pymsh.xorFold_snd] at h2
    simpa using h2
  · by_cases hneg : ∃ p ∈ ms', p.2 < 0
    · intro heq
      have hnone : Pymsh.MSetAddHash.hash hm sa ms' = none := by
        unfold Pymsh.MSetAddHash.hash
        rw [(Pymsh.addFold_none_iff hm sa ms' _).mpr hneg]
        rfl
      rw [hnone] at heq
      have : Pymsh.MSetAddHash.hash hm sa [] =
          some (Pymsh.MSetAddHash.H hm sa 0 sa.nonce, sa.nonce) := rfl
      rw [this] at heq
      exact Option.noConfusion heq
    · intro heq
      apply ha
      push_neg at hneg
      have h0lt := Pymsh.H_lt_add hm sa 0 sa.nonce
      unfold Pymsh.MSetAddHash.hash at heq
      rw [Pymsh.addFold_some hm sa ms' (fun p hp => not_lt.mpr (hneg p hp)) _
        h0lt] at heq
      simp only [List.foldl_nil, Option.map_some', Option.some.injEq,
        Prod.mk.injEq] at heq
      have hval := heq.1
      have : (Pymsh.MSetAddHash.H hm sa 0 sa.nonce +
          Pymsh.addContrib hm sa ms') % 2 ^ sa.m =
          Pymsh.MSetAddHash.H hm sa 0 sa.nonce % 2 ^ sa.m := by
        rw [hval, Nat.mod_eq_of_lt h0lt]
      have hmod : Pymsh.addContrib hm sa ms' % 2 ^ sa.m = 0 % 2 ^ sa.m := by
        have hme : (Pymsh.MSetAddHash.H hm sa 0 sa.nonce +
            Pymsh.addContrib hm sa ms') ≡
            Pymsh.MSetAddHash.H hm sa 0 sa.nonce + 0 [MOD 2 ^ sa.m] := by
          simpa [Nat.ModEq] using this
        exact (Nat.ModEq.add_left_cancel' _ hme : _)
      simpa using hmod

/-- Witness for the amended C4 at a concrete instance and multisets. -/
theorem claim4_witness :
    totalMult [([3], 1)] % ((2 : Int) ^ (4 : Nat)) ≠ 0 ∧
    Pymsh.addContrib hmC ⟨[1], 4, [2]⟩ [([3], 1)] % 2 ^ (4 : Nat) ≠ 0 ∧
    Pymsh.MSetXORHash.hash hmC ⟨[1], 4, [2]⟩ [([3], 1)] ≠
      Pymsh.MSetXORHash.hash hmC ⟨[1], 4, [2]⟩ [] ∧
    Pymsh.MSetAddHash.hash hmC ⟨[1], 4, [2]⟩ [([3], 1)] ≠
      Pymsh.MSetAddHash.hash hmC ⟨[1], 4, [2]⟩ [] := by
  refine ⟨by decide, by decide, ?_, ?_⟩
  · exact (claim4_amended_empty_set_distinctness hmC ⟨[1], 4, [2]⟩
      ⟨[1], 4, [2]⟩ [([3], 1)] [([3], 1)] (by decide) (by decide)).1
  · exact (claim4_amended_empty_set_distinctness hmC ⟨[1], 4, [2]⟩
      ⟨[1], 4, [2]⟩ [([3], 1)] [([3], 1)] (by decide) (by decide)).2

/-- Claim C6: `MSetAddHash.hash` raises ValueError (modelled `none`) if
and only if some entry of the multiset has a negative multiplicity; the
error aborts the call without producing a digest, and the method leaves
the instance (key, nonce, bit width `m`) unchanged, so the caller may
retry on the same instance. -/
theorem claim6_add_negative_rejection (hm : List Nat → List Nat → Nat)
    (s : Pymsh.MSetAddHash) (ms : MultisetL) :
    (s.hash hm ms = none ↔ ∃ p ∈ ms, p.2 < 0) ∧
    (Pymsh.MSetAddHash.hashRun hm s ms).2 = s := by
  refine ⟨?_, rfl⟩
  unfold Pymsh.MSetAddHash.hash
  rw [Option.map_eq_none']
  exact Pymsh.addFold_none_iff hm s ms _

namespace Pymsh

/-- The Mu element hash is a nonzero residue below `q` (for `q > 1`). -/
theorem muH_pos_lt (shaB : List Nat → List Nat) (s : MSetMuHash)
    (hq : 1 < s.q) (b : List Nat) :
    0 < s.H shaB b ∧ s.H shaB b < s.q := by
  unfold MSetMuHash.H
  by_cases h : fromBytes (shaB b) % s.q = 0 <;> simp only [h, if_true, if_false, ite_true, ite_false]
  · exact ⟨Nat.one_pos, hq⟩
  · exact ⟨Nat.pos_of_ne_zero h, Nat.mod_lt _ (by omega)⟩

/-- For a prime modulus the Mu element hash is coprime to `q`, hence the
Python `pow` call succeeds for every (possibly negative) exponent. -/
theorem pyPowMod_muH_isSome (shaB : List Nat → List Nat) (s : MSetMuHash)
    (hq : Nat.Prime s.q) (b : List Nat) (e : Int) :
    (pyPowMod (s.H shaB b) e s.q).isSome = true := by
  unfold pyPowMod
  by_cases he : 0 ≤ e
  · simp [he]
  · obtain ⟨hpos, hlt⟩ := muH_pos_lt shaB s hq.one_lt b
    have hnd : ¬s.q ∣ s.H shaB b := Nat.not_dvd_of_pos_of_lt hpos hlt
    have hco : Nat.Coprime s.q (s.H shaB b) :=
      (Nat.Prime.coprime_iff_not_dvd hq).mpr hnd
    have hgcd : Nat.gcd (s.H shaB b) s.q = 1 := Nat.Coprime.gcd_eq_one hco.symm
    simp [he, hgcd]

/-- When the modulus is prime, the Mu fold never raises, from any
successful accumulator. -/
theorem muFold_isSome (shaB : List Nat → List Nat) (s : MSetMuHash)
    (hq : Nat.Prime s.q) (ms : MultisetL) :
    ∀ a : Nat, ((ms.foldl (MSetMuHash.step shaB s) (some a)).isSome = true) := by
  induction ms with
  | nil => intro a; rfl
  | cons p ms ih =>
    intro a
    rw [List.foldl_cons]
    obtain ⟨t, ht⟩ :=
      Option.isSome_iff_exists.mp (pyPowMod_muH_isSome shaB s hq p.1 p.2)
    have hstep : MSetMuHash.step shaB s (some a) p = some (a * t % s.q) := by
      simp [MSetMuHash.step, ht]
    rw [hstep]
    exact ih _

end Pymsh

namespace Pymsh

/-- Each VAdd loop iteration yields a vector of length `l`. -/
theorem vaddStep_length (shaB : List Nat → List Nat) (s : MSetVAddHash)
    (sv : List Int) (em : Elem × Int) :
    (s.step shaB sv em).length = s.l := by
  unfold MSetVAddHash.step
  rw [List.length_map, List.length_range]

/-- The VAdd fold preserves vector length `l`. -/
theorem vaddFold_length (shaB : List Nat → List Nat) (s : MSetVAddHash)
    (ms : MultisetL) : ∀ sv : List Int, sv.length = s.l →
    (ms.foldl (MSetVAddHash.step shaB s) sv).length = s.l := by
  induction ms with
  | nil => intro sv h; exact h
  | cons p ms ih =>
    intro sv h
    rw [List.foldl_cons]
    exact ih _ (vaddStep_length shaB s sv p)

/-- Entries produced by the VAdd fold lie in `[0, n)` when `n > 0`. -/
theorem vaddFold_mem_range (shaB : List Nat → List Nat) (s : MSetVAddHash)
    (hn : 0 < s.n) (ms : MultisetL) : ∀ sv : List Int,
    (∀ x ∈ sv, 0 ≤ x ∧ x < (s.n : Int)) →
    ∀ x ∈ ms.foldl (MSetVAddHash.step shaB s) sv, 0 ≤ x ∧ x < (s.n : Int) := by
  induction ms with
  | nil => intro sv h; exact h
  | cons p ms ih =>
    intro sv _
    rw [List.foldl_cons]
    apply ih
    intro x hx
    unfold MSetVAddHash.step at hx
    obtain ⟨i, _, hix⟩ := List.mem_map.mp hx
    refine hix ▸ ⟨Int.emod_nonneg _ ?_, Int.emod_lt_of_pos _ ?_⟩
    · exact_mod_cast Nat.pos_iff_ne_zero.mp hn
    · exact_mod_cast hn

end Pymsh

/-- Concrete stand-in for the SHA-256 digest primitive whose digests are
the single byte 1, used only for the C7 counterexample. -/
def shaOne : List Nat → List Nat := fun _ => [1]

/-- Counterexample to C7 as stated: on concrete instances (field modulus 7
for Mu; default `n = 2^16`, `l = 16` for VAdd) and the multiset
`{[1]: -1}`, which has a negative multiplicity, neither variant raises:
`MSetMuHash.hash` returns a value (Python `pow` computes a modular inverse
for the negative exponent) and `MSetVAddHash.hash` returns a full result
vector. -/
theorem claim7_counterexample :
    (Pymsh.MSetMuHash.hash shaOne ⟨7⟩ [([1], -1)]).isSome = true ∧
    Pymsh.MSetVAddHash.hash shaOne ⟨65536, 16⟩ [([1], -1)] =
      65535 :: List.replicate 15 0 := by
  constructor
  · have h1 : Pymsh.MSetMuHash.H shaOne ⟨7⟩ [1] = 1 := rfl
    simp only [Pymsh.MSetMuHash.hash, List.foldl_cons, List.foldl_nil,
      Pymsh.MSetMuHash.step, h1, Pymsh.pyPowMod]
    rw [if_neg (by decide), if_pos (by rw [Nat.gcd_one_left])]
    rfl
  · decide

/-- Claim C7, amended: contrary to the claim, neither `MSetMuHash.hash`
nor `MSetVAddHash.hash` rejects negative multiplicities.  On any instance
whose modulus `q` is prime, the Mu hash always returns a value (negative
multiplicities are mapped to modular inverses by Python `pow`); the VAdd
hash always returns a full length-`l` vector of residues in `[0, n)`
(negative products are reduced into range by the Python modulo).  Only the
Add variant rejects negative multiplicities. -/
theorem claim7_amended_mu_vadd_accept_negative
    (shaB : List Nat → List Nat) (sm : Pymsh.MSetMuHash)
    (hq : Nat.Prime sm.q) (sv : Pymsh.MSetVAddHash) (hn : 0 < sv.n)
    (ms : MultisetL) :
    (sm.hash shaB ms).isSome = true ∧
    (sv.hash shaB ms).length = sv.l ∧
    ∀ x ∈ sv.hash shaB ms, 0 ≤ x ∧ x < (sv.n : Int) := by
  refine ⟨?_, ?_, ?_⟩
  · exact Pymsh.muFold_isSome shaB sm hq ms 1
  · exact Pymsh.vaddFold_length shaB sv ms _ (List.length_replicate _ _)
  · apply Pymsh.vaddFold_mem_range shaB sv hn ms
    intro x hx
    rw [List.eq_of_mem_replicate hx]
    exact ⟨le_refl 0, by exact_mod_cast hn⟩

/-- Witness for the amended C7 at a concrete prime modulus, concrete VAdd
parameters and a multiset with a negative multiplicity. -/
theorem claim7_witness :
    (Pymsh.MSetMuHash.hash shaOne ⟨7⟩ [([2], -3), ([5], 2)]).isSome = true ∧
    (Pymsh.MSetVAddHash.hash shaOne ⟨16, 4⟩ [([2], -3), ([5], 2)]).length = 4 ∧
    ∀ x ∈ Pymsh.MSetVAddHash.hash shaOne ⟨16, 4⟩ [([2], -3), ([5], 2)],
      0 ≤ x ∧ x < ((16 : Nat) : Int) :=
  claim7_amended_mu_vadd_accept_negative shaOne ⟨7⟩ (by norm_num) ⟨16, 4⟩
    (by decide) [([2], -3), ([5], 2)]

/-- Dict-style insertion adding multiplicities: the entry for `e` is
incremented by `m` if present, else appended. -/
def insertMS : MultisetL → Elem → Int → MultisetL
  | [], e, m => [(e, m)]
  | (f, m') :: rest, e, m =>
    if f = e then (f, m' + m) :: rest else (f, m') :: insertMS rest e m

/-- Multiset union `A ⊎ B`: fold the entries of `B` into `A`, adding the
multiplicities of shared elements. -/
def mergeMS (A B : MultisetL) : MultisetL :=
  B.foldl (fun acc p => insertMS acc p.1 p.2) A

/-- Insertion of a nonnegative multiplicity preserves nonnegativity of all
multiplicities. -/
theorem insertMS_nonneg {ms : MultisetL} {e : Elem} {m : Int}
    (hms : ∀ p ∈ ms, 0 ≤ p.2) (hm : 0 ≤ m) :
    ∀ p ∈ insertMS ms e m, 0 ≤ p.2 := by
  induction ms with
  | nil =>
    intro p hp
    rcases List.mem_singleton.mp hp with rfl
    exact hm
  | cons q rest ih =>
    intro p hp
    unfold insertMS at hp
    by_cases hf : q.1 = e
    · rw [if_pos hf] at hp
      rcases List.mem_cons.mp hp with rfl | h
      · have := hms q (List.mem_cons_self q rest)
        dsimp only
        omega
      · exact hms p (List.mem_cons_of_mem q h)
    · rw [if_neg hf] at hp
      rcases List.mem_cons.mp hp with rfl | h
      · exact hms q (List.mem_cons_self q rest)
      · exact ih (fun r hr => hms r (List.mem_cons_of_mem q hr)) _ h

/-- The union of two nonnegative multisets is nonnegative. -/
theorem mergeMS_nonneg {A B : MultisetL} (hA : ∀ p ∈ A, 0 ≤ p.2)
    (hB : ∀ p ∈ B, 0 ≤ p.2) : ∀ p ∈ mergeMS A B, 0 ≤ p.2 := by
  induction B generalizing A with
  | nil => exact hA
  | cons b B ih =>
    have hb := hB b (List.mem_cons_self b B)
    have hB' := fun r hr => hB r (List.mem_cons_of_mem b hr)
    exact ih (insertMS_nonneg hA hb) hB'

namespace Pymsh

/-- The full product `Π H(e)^mult` over the entries, without modular
reduction. -/
def muProd (shaB : List Nat → List Nat) (s : MSetMuHash) : MultisetL → Nat
  | [] => 1
  | p :: ms => MSetMuHash.H shaB s p.1 ^ p.2.toNat * muProd shaB s ms

/-- One successful loop iteration of the Mu hash, on plain values. -/
def muStepT (shaB : List Nat → List Nat) (s : MSetMuHash)
    (p : Nat) (em : Elem × Int) : Nat :=
  p * (MSetMuHash.H shaB s em.1 ^ em.2.toNat % s.q) % s.q

/-- The reduced Mu product over the entries, as the hash loop computes it. -/
def muHashT (shaB : List Nat → List Nat) (s : MSetMuHash)
    (ms : MultisetL) : Nat :=
  ms.foldl (muStepT shaB s) 1

/-- On nonnegative multiplicities the Mu fold succeeds and computes the
reduced product. -/
theorem muFold_eq_some (shaB : List Nat → List Nat) (s : MSetMuHash)
    (ms : MultisetL) (hms : ∀ p ∈ ms, 0 ≤ p.2) :
    ∀ a : Nat, ms.foldl (MSetMuHash.step shaB s) (some a) =
      some (ms.foldl (muStepT shaB s) a) := by
  induction ms with
  | nil => intro a; rfl
  | cons p ms ih =>
    intro a
    have hp : (0 : Int) ≤ p.2 := hms p (List.mem_cons_self p ms)
    rw [List.foldl_cons, List.foldl_cons]
    have hstep : MSetMuHash.step shaB s (some a) p =
        some (muStepT shaB s a p) := by
      simp [MSetMuHash.step, pyPowMod, hp, muStepT]
    rw [hstep]
    exact ih (fun r hr => hms r (List.mem_cons_of_mem p hr)) _

/-- Shifting the accumulator out of the unreduced Mu product fold. -/
theorem muProd_from (shaB : List Nat → List Nat) (s : MSetMuHash)
    (ms : MultisetL) :
    ∀ a : Nat, ms.foldl (fun p em => p * MSetMuHash.H shaB s em.1 ^ em.2.toNat) a =
      a * muProd shaB s ms := by
  induction ms with
  | nil => intro a; simp [muProd]
  | cons p ms ih =>
    intro a
    rw [List.foldl_cons, ih]
    simp only [muProd]
    ring

/-- Inserting an entry multiplies the unreduced product by its
contribution. -/
theorem muProd_insert (shaB : List Nat → List Nat) (s : MSetMuHash)
    {ms : MultisetL} {e : Elem} {m : Int}
    (hms : ∀ p ∈ ms, 0 ≤ p.2) (hm : 0 ≤ m) :
    muProd shaB s (insertMS ms e m) =
      muProd shaB s ms * MSetMuHash.H shaB s e ^ m.toNat := by
  induction ms with
  | nil => simp [insertMS, muProd]
  | cons q rest ih =>
    unfold insertMS
    by_cases hf : q.1 = e
    · rw [if_pos hf]
      have hq := hms q (List.mem_cons_self q rest)
      simp only [muProd]
      rw [hf, Int.toNat_add hq hm, pow_add]
      ring
    · rw [if_neg hf]
      simp only [muProd]
      rw [ih (fun r hr => hms r (List.mem_cons_of_mem q hr))]
      ring

/-- The unreduced product is multiplicative over the dict union. -/
theorem muProd_merge (shaB : List Nat → List Nat) (s : MSetMuHash)
    {A B : MultisetL} (hA : ∀ p ∈ A, 0 ≤ p.2) (hB : ∀ p ∈ B, 0 ≤ p.2) :
    muProd shaB s (mergeMS A B) = muProd shaB s A * muProd shaB s B := by
  induction B generalizing A with
  | nil => simp [mergeMS, muProd]
  | cons b B ih =>
    have hb := hB b (List.mem_cons_self b B)
    have hB' := fun r hr => hB r (List.mem_cons_of_mem b hr)
    have hstep : mergeMS A (b :: B) = mergeMS (insertMS A b.1 b.2) B := rfl
    rw [hstep, ih (insertMS_nonneg hA hb) hB',
      muProd_insert shaB s hA hb]
    simp only [muProd]
    ring

/-- The reduced product fold is congruent to the accumulator times the
unreduced product, modulo `q`. -/
theorem muHashT_modeq (shaB : List Nat → List Nat) (s : MSetMuHash)
    (ms : MultisetL) :
    ∀ a : Nat, ms.foldl (muStepT shaB s) a ≡ a * muProd shaB s ms [MOD s.q] := by
  induction ms with
  | nil => intro a; simp [muProd, Nat.ModEq.refl]
  | cons p ms ih =>
    intro a
    rw [List.foldl_cons]
    calc List.foldl (muStepT shaB s) (muStepT shaB s a p) ms
        ≡ muStepT shaB s a p * muProd shaB s ms [MOD s.q] := ih _
      _ ≡ a * (MSetMuHash.H shaB s p.1 ^ p.2.toNat) * muProd shaB s ms
          [MOD s.q] := by
          apply Nat.ModEq.mul_right
          calc muStepT shaB s a p
              ≡ a * (MSetMuHash.H shaB s p.1 ^ p.2.toNat % s.q) [MOD s.q] :=
                Nat.mod_modEq _ _
            _ ≡ a * (MSetMuHash.H shaB s p.1 ^ p.2.toNat) [MOD s.q] :=
                Nat.ModEq.mul_left a (Nat.mod_modEq _ _)
      _ = a * muProd shaB s (p :: ms) := by simp only [muProd]; ring

/-- The reduced product fold stays below a positive modulus. -/
theorem muHashT_lt (shaB : List Nat → List Nat) (s : MSetMuHash)
    (hq : 0 < s.q) (ms : MultisetL) :
    ∀ a : Nat, a < s.q → ms.foldl (muStepT shaB s) a < s.q := by
  induction ms with
  | nil => intro a ha; exact ha
  | cons p ms ih =>
    intro a _
    rw [List.foldl_cons]
    exact ih _ (Nat.mod_lt _ hq)

end Pymsh

/-- Claim C3: on a fixed MSetMuHash instance with prime modulus `q`,
`hash {}` is `1`, and the hash of a union of two multisets (adding the
multiplicities of shared elements; disjoint unions are the special case)
is the product of the two hashes mod `q`.  Multiplicities are nonnegative
here, per the data model of the Mu variant. -/
theorem claim3_mu_multiplicative (shaB : List Nat → List Nat)
    (s : Pymsh.MSetMuHash) (hq : Nat.Prime s.q) (A B : MultisetL)
    (hA : ∀ p ∈ A, 0 ≤ p.2) (hB : ∀ p ∈ B, 0 ≤ p.2) :
    s.hash shaB [] = some 1 ∧
    ∃ a b, s.hash shaB A = some a ∧ s.hash shaB B = some b ∧
      s.hash shaB (mergeMS A B) = some (a * b % s.q) := by
  have hq1 : 1 < s.q := hq.one_lt
  refine ⟨rfl, Pymsh.muHashT shaB s A, Pymsh.muHashT shaB s B, ?_, ?_, ?_⟩
  · exact Pymsh.muFold_eq_some shaB s A hA 1
  · exact Pymsh.muFold_eq_some shaB s B hB 1
  · have hmerge := mergeMS_nonneg hA hB
    have h1 : Pymsh.MSetMuHash.hash shaB s (mergeMS A B) =
        some (Pymsh.muHashT shaB s (mergeMS A B)) :=
      Pymsh.muFold_eq_some shaB s (mergeMS A B) hmerge 1
    rw [h1]
    congr 1
    have hAm : Pymsh.muHashT shaB s A ≡ Pymsh.muProd shaB s A [MOD s.q] := by
      simpa [Pymsh.muHashT] using Pymsh.muHashT_modeq shaB s A 1
    have hBm : Pymsh.muHashT shaB s B ≡ Pymsh.muProd shaB s B [MOD s.q] := by
      simpa [Pymsh.muHashT] using Pymsh.muHashT_modeq shaB s B 1
    have hMm : Pymsh.muHashT shaB s (mergeMS A B) ≡
        Pymsh.muProd shaB s A * Pymsh.muProd shaB s B [MOD s.q] := by
      have h := Pymsh.muHashT_modeq shaB s (mergeMS A B) 1
      rw [one_mul, Pymsh.muProd_merge shaB s hA hB] at h
      simpa [Pymsh.muHashT] using h
    have hfin : Pymsh.muHashT shaB s (mergeMS A B) ≡
        Pymsh.muHashT shaB s A * Pymsh.muHashT shaB s B [MOD s.q] :=
      hMm.trans ((hAm.mul hBm).symm)
    have hlt : Pymsh.muHashT shaB s (mergeMS A B) < s.q :=
      Pymsh.muHashT_lt shaB s (by omega) (mergeMS A B) 1 hq1
    calc Pymsh.muHashT shaB s (mergeMS A B)
        = Pymsh.muHashT shaB s (mergeMS A B) % s.q :=
          (Nat.mod_eq_of_lt hlt).symm
      _ = Pymsh.muHashT shaB s A * Pymsh.muHashT shaB s B % s.q := hfin

/-- Witness for C3 at a concrete prime modulus and concrete overlapping
multisets. -/
theorem claim3_witness :
    Pymsh.MSetMuHash.hash shaC ⟨7⟩ [] = some 1 ∧
    ∃ a b, Pymsh.MSetMuHash.hash shaC ⟨7⟩ [([1], 2), ([2], 3)] = some a ∧
      Pymsh.MSetMuHash.hash shaC ⟨7⟩ [([1], 1), ([3], 4)] = some b ∧
      Pymsh.MSetMuHash.hash shaC ⟨7⟩
        (mergeMS [([1], 2), ([2], 3)] [([1], 1), ([3], 4)]) =
        some (a * b % (7 : Nat)) :=
  claim3_mu_multiplicative shaC ⟨7⟩ (by norm_num) [([1], 2), ([2], 3)]
    [([1], 1), ([3], 4)] (by decide) (by decide)

/-- Concrete stand-in for the SHA-256 primitive with 32-byte digests, used
only to instantiate the C10 witness. -/
def sha32C : List Nat → List Nat :=
  fun b => (fromBytes b % 256) :: List.replicate 31 7

/-- Claim C10: with the default parameters (`n = 2^16`, `l = 16`) and the
32-byte SHA-256 digest, the element vectors of MSetVAddHash have zero
coordinates at indices 8 through 15 (the four-byte slices past the end of
the digest are empty and decode to 0), hence every hash vector is zero at
those indices: half of the default digest carries no information. -/
theorem claim10_vadd_upper_half_zero (shaB : List Nat → List Nat)
    (hlen : ∀ b, (shaB b).length = 32) (ms : MultisetL) (i : Nat)
    (h8 : 8 ≤ i) (h16 : i < 16) :
    (∀ b, (Pymsh.MSetVAddHash.H shaB ⟨65536, 16⟩ b).getD i 0 = 0) ∧
    (Pymsh.MSetVAddHash.hash shaB ⟨65536, 16⟩ ms).getD i 0 = 0 ∧
    (Pymsh.MSetVAddHash.hash shaB ⟨65536, 16⟩ ms).length = 16 := by
  have hHzero : ∀ b : Elem,
      (Pymsh.MSetVAddHash.H shaB ⟨65536, 16⟩ b).getD i 0 = 0 := by
    intro b
    unfold Pymsh.MSetVAddHash.H
    rw [getD_map_range _ _ h16]
    have hd : (shaB b).drop (i * 4) = [] :=
      List.drop_eq_nil_of_le (by rw [hlen b]; omega)
    rw [hd]
    rfl
  refine ⟨hHzero, ?_, ?_⟩
  · have main : ∀ sv : List Int, sv.getD i 0 = 0 →
        (ms.foldl (Pymsh.MSetVAddHash.step shaB ⟨65536, 16⟩) sv).getD i 0 = 0 := by
      induction ms with
      | nil => intro sv h; exact h
      | cons p ms ih =>
        intro sv h
        rw [List.foldl_cons]
        apply ih
        unfold Pymsh.MSetVAddHash.step
        rw [getD_map_range _ _ h16, h, hHzero p.1]
        simp
    apply main
    rw [List.getD_eq_getElem?_getD, List.getElem?_replicate]
    split <;> rfl
  · exact Pymsh.vaddFold_length shaB ⟨65536, 16⟩ ms _
      (List.length_replicate _ _)

/-- Witness for C10 at index 8 with a concrete 32-byte digest function and
a concrete multiset. -/
theorem claim10_witness :
    (∀ b, (Pymsh.MSetVAddHash.H sha32C ⟨65536, 16⟩ b).getD 8 0 = 0) ∧
    (Pymsh.MSetVAddHash.hash sha32C ⟨65536, 16⟩ [([1], 5), ([2], 2)]).getD 8 0 = 0 ∧
    (Pymsh.MSetVAddHash.hash sha32C ⟨65536, 16⟩ [([1], 5), ([2], 2)]).length = 16 :=
  claim10_vadd_upper_half_zero sha32C (fun b => by simp [sha32C])
    [([1], 5), ([2], 2)] 8 (by decide) (by decide)

namespace PymshX

/-- Shifting the accumulator out of the XOR fold over element hashes. -/
theorem foldl_xor_from (blake : List Nat → List Nat)
    (es : List (List Nat)) : ∀ a : Nat,
    es.foldl (fun x e => x ^^^ fromBytes (blake e)) a = a ^^^ xorOf blake es := by
  induction es with
  | nil => intro a; simp [xorOf]
  | cons e es ih =>
    intro a
    rw [List.foldl_cons, ih]
    have h2 : xorOf blake (e :: es) = fromBytes (blake e) ^^^ xorOf blake es := by
      unfold xorOf
      rw [List.foldl_cons, ih, Nat.zero_xor]
      rfl
    rw [h2, Nat.xor_assoc]

/-- The XOR of element hashes over a list is permutation invariant. -/
theorem xorOf_perm (blake : List Nat → List Nat)
    {l₁ l₂ : List (List Nat)} (h : l₁.Perm l₂) :
    xorOf blake l₁ = xorOf blake l₂ := by
  unfold xorOf
  exact foldl_perm
    (fun b x y => by
      rw [Nat.xor_assoc, Nat.xor_assoc, Nat.xor_comm (fromBytes (blake x))])
    h 0

/-- The XOR of element hashes over a concatenation. -/
theorem xorOf_append (blake : List Nat → List Nat)
    (l₁ l₂ : List (List Nat)) :
    xorOf blake (l₁ ++ l₂) = xorOf blake l₁ ^^^ xorOf blake l₂ := by
  unfold xorOf
  rw [List.foldl_append, foldl_xor_from]
  rfl

/-- Folding `__combine` over a list of elements XORs their hash values
into the accumulator field, leaving every other field unchanged. -/
theorem combine_fold (blake : List Nat → List Nat)
    (es : List (List Nat)) : ∀ s : XORMSH,
    es.foldl (fun st e => (st.combine (hashElement blake e)).2) s =
      { s with combined_hash := s.combined_hash ^^^ xorOf blake es } := by
  induction es with
  | nil => intro s; simp [xorOf]
  | cons e es ih =>
    intro s
    rw [List.foldl_cons, ih]
    have h2 : xorOf blake (e :: es) = fromBytes (blake e) ^^^ xorOf blake es := by
      unfold xorOf
      rw [List.foldl_cons, foldl_xor_from, Nat.zero_xor]
      rfl
    rw [h2]
    unfold XORMSH.combine hashElement
    simp [Nat.xor_assoc]

/-- Characterization of `XORMSH.hash`: the returned digest is the hash of
the bytes of (accumulator XOR all element hashes) and the accumulator
field is updated to that value. -/
theorem hash_eq (blake : List Nat → List Nat) (s : XORMSH)
    (es : List (List Nat)) :
    XORMSH.hash blake s es =
      (blake (natToBytes (s.combined_hash ^^^ xorOf blake es)),
       { s with combined_hash := s.combined_hash ^^^ xorOf blake es }) := by
  unfold XORMSH.hash
  rw [combine_fold]
  unfold XORMSH.combine
  simp [fromBytes, Nat.xor_zero, natToBytes]

/-- Characterization of `XORMSH.update`: one element is XORed in and the
digest of the new accumulator is returned. -/
theorem update_eq (blake : List Nat → List Nat) (s : XORMSH)
    (e : List Nat) :
    XORMSH.update blake s e =
      (blake (natToBytes (s.combined_hash ^^^ fromBytes (blake e))),
       { s with combined_hash := s.combined_hash ^^^ fromBytes (blake e) }) :=
  rfl

/-- Characterization of a nonempty run of `update` calls: the last return
value is the digest of (accumulator XOR all element hashes). -/
theorem updatesLast_eq (blake : List Nat → List Nat) :
    ∀ (es : List (List Nat)) (s : XORMSH) (e : List Nat),
    XORMSH.updatesLast blake s e es =
      (blake (natToBytes (s.combined_hash ^^^ xorOf blake (e :: es))),
       { s with combined_hash := s.combined_hash ^^^ xorOf blake (e :: es) }) := by
  intro es
  induction es with
  | nil =>
    intro s e
    have h1 : xorOf blake [e] = fromBytes (blake e) := by
      simp [xorOf]
    unfold XORMSH.updatesLast
    rw [List.foldl_nil, update_eq]
    rw [show xorOf blake (e :: []) = xorOf blake [e] from rfl, h1]
  | cons x es ih =>
    intro s e
    have hstep : XORMSH.updatesLast blake s e (x :: es) =
        XORMSH.updatesLast blake (XORMSH.update blake s e).2 x es := by
      unfold XORMSH.updatesLast
      rw [List.foldl_cons]
    rw [hstep, ih, update_eq]
    have hx : xorOf blake (e :: x :: es) =
        fromBytes (blake e) ^^^ xorOf blake (x :: es) := by
      unfold xorOf
      rw [List.foldl_cons, foldl_xor_from, Nat.zero_xor]
      rfl
    rw [hx]
    simp [Nat.xor_assoc]

end PymshX

/-- Claim C2: on an XORMSH instance, (1) for any element sequence and any
split point `k`, doing `reset`, a bulk `hash` of the first `k` elements,
`reset` again, then `update` over the full sequence returns, from the last
`update`, the digest of a single bulk `hash` of the full sequence from a
reset state; (2) from any common state, two `update` runs over orderings
of the same elements return the same final digest; (3) `reset` followed by
`hash subset1` and then `update` over `subset2` ends in the digest of
`hash (subset1 ++ subset2)` from a reset state. -/
theorem claim2_incremental_bulk_equivalence
    (blake : List Nat → List Nat) (s0 : PymshX.XORMSH) (k : Nat)
    (e1 : List Nat) (es1 : List (List Nat))
    (e2 : List Nat) (es2 : List (List Nat))
    (t1 : List (List Nat)) (e3 : List Nat) (t2 : List (List Nat))
    (hperm : (e1 :: es1).Perm (e2 :: es2)) :
    (PymshX.XORMSH.updatesLast blake
        ((PymshX.XORMSH.hash blake s0.reset ((e1 :: es1).take k)).2.reset)
        e1 es1).1 =
      (PymshX.XORMSH.hash blake s0.reset (e1 :: es1)).1 ∧
    (∀ s : PymshX.XORMSH,
      (PymshX.XORMSH.updatesLast blake s e1 es1).1 =
        (PymshX.XORMSH.updatesLast blake s e2 es2).1) ∧
    (PymshX.XORMSH.updatesLast blake
        (PymshX.XORMSH.hash blake s0.reset t1).2 e3 t2).1 =
      (PymshX.XORMSH.hash blake s0.reset (t1 ++ e3 :: t2)).1 := by
  refine ⟨?_, ?_, ?_⟩
  · rw [PymshX.hash_eq, PymshX.updatesLast_eq, PymshX.hash_eq]
    simp [PymshX.XORMSH.reset]
  · intro s
    rw [PymshX.updatesLast_eq, PymshX.updatesLast_eq,
      PymshX.xorOf_perm blake hperm]
  · rw [PymshX.hash_eq, PymshX.updatesLast_eq, PymshX.hash_eq,
      PymshX.xorOf_append]
    simp [PymshX.XORMSH.reset, Nat.xor_assoc]

/-- Witness for C2 at a concrete instance, concrete element lists and a
concrete permutation. -/
theorem claim2_witness :
    (PymshX.XORMSH.updatesLast blakeC
        ((PymshX.XORMSH.hash blakeC (PymshX.XORMSH.make hbC [5] [6]).reset
          (([1] :: [[2]]).take 1)).2.reset) [1] [[2]]).1 =
      (PymshX.XORMSH.hash blakeC (PymshX.XORMSH.make hbC [5] [6]).reset
        ([1] :: [[2]])).1 ∧
    (∀ s : PymshX.XORMSH,
      (PymshX.XORMSH.updatesLast blakeC s [1] [[2]]).1 =
        (PymshX.XORMSH.updatesLast blakeC s [2] [[1]]).1) ∧
    (PymshX.XORMSH.updatesLast blakeC
        (PymshX.XORMSH.hash blakeC (PymshX.XORMSH.make hbC [5] [6]).reset
          [[3]]).2 [4] [[7]]).1 =
      (PymshX.XORMSH.hash blakeC (PymshX.XORMSH.make hbC [5] [6]).reset
        ([[3]] ++ [4] :: [[7]])).1 :=
  claim2_incremental_bulk_equivalence blakeC (PymshX.XORMSH.make hbC [5] [6])
    1 [1] [[2]] [2] [[1]] [[3]] [4] [[7]] (by decide)

namespace PymshX

/-- A single public method call preserves the key, the nonce and the
stored initial HMAC value. -/
theorem execOp_frame (blake : List Nat → List Nat) (s : XORMSH)
    (op : XOp) :
    (s.execOp blake op).K = s.K ∧ (s.execOp blake op).nonce = s.nonce ∧
    (s.execOp blake op).init_hmac = s.init_hmac := by
  cases op with
  | hashOp es => rw [XORMSH.execOp, hash_eq]; exact ⟨rfl, rfl, rfl⟩
  | updateOp e => rw [XORMSH.execOp, update_eq]; exact ⟨rfl, rfl, rfl⟩
  | resetOp => exact ⟨rfl, rfl, rfl⟩

/-- Any sequence of public method calls preserves the key, the nonce and
the stored initial HMAC value. -/
theorem execOps_frame (blake : List Nat → List Nat) (ops : List XOp) :
    ∀ s : XORMSH,
    (s.execOps blake ops).K = s.K ∧ (s.execOps blake ops).nonce = s.nonce ∧
    (s.execOps blake ops).init_hmac = s.init_hmac := by
  induction ops with
  | nil => intro s; exact ⟨rfl, rfl, rfl⟩
  | cons op ops ih =>
    intro s
    have h1 := execOp_frame blake s op
    have h2 := ih (s.execOp blake op)
    have hstep : s.execOps blake (op :: ops) =
        (s.execOp blake op).execOps blake ops := by
      unfold XORMSH.execOps
      rw [List.foldl_cons]
    rw [hstep]
    exact ⟨h2.1.trans h1.1, h2.2.1.trans h1.2.1, h2.2.2.trans h1.2.2⟩

end PymshX

/-- Claim C8: after any sequence of `hash`, `update` and `reset` calls on
an XORMSH instance, the key and the nonce are those drawn at construction,
and `reset` restores the accumulator exactly to the post-construction seed
(the HMAC of the nonce under the key), drawing no new key or nonce. -/
theorem claim8_xormsh_immutability_and_reset
    (blake : List Nat → List Nat) (hb : List Nat → List Nat → List Nat)
    (K nonce : List Nat) (ops : List PymshX.XOp) :
    ((PymshX.XORMSH.make hb K nonce).execOps blake ops).K = K ∧
    ((PymshX.XORMSH.make hb K nonce).execOps blake ops).nonce = nonce ∧
    ((PymshX.XORMSH.make hb K nonce).execOps blake ops).init_hmac =
      fromBytes (hb K nonce) ∧
    (PymshX.XORMSH.make hb K nonce).combined_hash = fromBytes (hb K nonce) ∧
    (((PymshX.XORMSH.make hb K nonce).execOps blake ops).reset).combined_hash =
      fromBytes (hb K nonce) ∧
    (((PymshX.XORMSH.make hb K nonce).execOps blake ops).reset).K = K ∧
    (((PymshX.XORMSH.make hb K nonce).execOps blake ops).reset).nonce =
      nonce := by
  obtain ⟨h1, h2, h3⟩ :=
    PymshX.execOps_frame blake ops (PymshX.XORMSH.make hb K nonce)
  refine ⟨h1, h2, h3, rfl, ?_, h1, h2⟩
  rw [PymshX.XORMSH.reset]
  exact h3

/-- Claim C9: `XORMSH.hash` is stateful: it folds the elements into the
persistent accumulator without resetting it, so hashing the same list
twice in a row from a freshly reset state returns, on the second call, the
digest that `hash []` returns from a freshly reset state (every element
XOR-cancels itself). -/
theorem claim9_hash_is_stateful (blake : List Nat → List Nat)
    (s : PymshX.XORMSH) (v : List (List Nat)) :
    (PymshX.XORMSH.hash blake
        (PymshX.XORMSH.hash blake s.reset v).2 v).1 =
      (PymshX.XORMSH.hash blake s.reset []).1 := by
  rw [PymshX.hash_eq, PymshX.hash_eq, PymshX.hash_eq]
  simp only
  rw [Nat.xor_assoc, Nat.xor_self, Nat.xor_zero]
  have h0 : PymshX.xorOf blake [] = 0 := rfl
  rw [h0, Nat.xor_zero]
